import Mathlib

/-!
Verification development for the `BibleTransliterations` module
(`src/Python/BibleTransliterations.py`).

Python strings are modelled as lists of Unicode code points (`List Char`),
matching Python's view of `str` as a sequence of code points.  The Python
string primitives used by the module (`str.replace` with and without a count,
`str.find`/`str.index` with a start offset, `str.split(' ')`, `str.rstrip`,
`str.isdigit`, slicing) are given executable embeddings below.  Fallible code
paths (Python exceptions: `AssertionError`, `ValueError`, `IndexError`, and
the module's deliberate bare-name `NameError` crash idioms such as `halt`,
`not_enough_schwa_loops`, `stop_so_we_can_fix_the_Hebrew_table`) are modelled
with `Except Fatal`.

The standard-library oracle `unicodedata.name` is modelled by three Boolean
classifiers (`hasUnicodeName`, `unicodeNameHasHEBREW`, `unicodeNameHasGREEK`)
that are faithful on the code-point ranges exercised in this development:
C0 control characters (TAB, LF, ...) have no Unicode name; code points in the
assigned ranges of the Unicode Hebrew block have names containing `HEBREW`;
Greek letters in the basic Greek block have names containing `GREEK`.
-/

namespace BibleTransliterations

/-- A Python string, viewed as its sequence of Unicode code points. -/
abbrev Str := List Char

/-- Code points of a Lean string literal: used to transcribe the Python
string literals appearing in the source. -/
def str (s : String) : Str := s.data

/-- The exceptional outcomes of the module.  `assertionError`, `valueError`
and `indexError` model the Python exceptions of those names; the remaining
constructors model the module's deliberate bare-name `NameError` crash idioms
(`halt`, `not_enough_loop_iterations_in_transliterateHebrew`,
`not_enough_schwa_loops`, `stop_so_we_can_fix_the_Hebrew_table` /
`stop_so_we_can_fix_the_Greek_table`). -/
inductive Fatal where
  | assertionError
  | valueError
  | indexError
  | halt
  | iyNonConvergence
  | schwaNonConvergence
  | residualScript
deriving DecidableEq, Repr

/-- Recursion core of Python `str.replace(old, new)` (unbounded form): scan
the text left to right; whenever `old` is a prefix of the remaining text,
emit `new` and skip past `old` (Python replaces non-overlapping occurrences
left to right), otherwise copy one character.  `fuel` only drives the
recursion; every call site supplies `fuel > length of the text`, so the
`0` case is never reached.  The `old ≠ []` guard makes an empty pattern act
as the identity; the module never calls `replace` with an empty pattern
(table sources and words are asserted non-empty before use). -/
def pyReplaceFuel (old new : Str) : Nat → Str → Str
  | 0, s => s
  | fuel+1, s =>
    if old ≠ [] ∧ old.isPrefixOf s then
      new ++ pyReplaceFuel old new fuel (s.drop old.length)
    else
      match s with
      | [] => []
      | c :: rest => c :: pyReplaceFuel old new fuel rest

/-- Python `s.replace(old, new)`: replace every non-overlapping occurrence,
scanning left to right. -/
def pyReplaceAll (s old new : Str) : Str := pyReplaceFuel old new (s.length + 1) s

/-- Recursion core of Python `str.replace(old, new, count)`: as
`pyReplaceFuel`, but at most `cnt` replacements are performed; once the
budget is exhausted the rest of the text is returned verbatim. -/
def pyReplaceNFuel (old new : Str) : Nat → Nat → Str → Str
  | 0, _, s => s
  | _+1, 0, s => s
  | fuel+1, cnt+1, s =>
    if old ≠ [] ∧ old.isPrefixOf s then
      new ++ pyReplaceNFuel old new fuel cnt (s.drop old.length)
    else
      match s with
      | [] => []
      | c :: rest => c :: pyReplaceNFuel old new fuel (cnt+1) rest

/-- Python `s.replace(old, new, 1)`: replace at most the leftmost
occurrence. -/
def pyReplace1 (s old new : Str) : Str := pyReplaceNFuel old new (s.length + 1) 1 s

/-- Recursion core of Python `str.find`: the position (counted from `i`) of
the first occurrence of `sub`, or `none`.  The empty pattern is never used by
the module. -/
def pyFindAux (sub : Str) : Str → Nat → Option Nat
  | [], _ => none
  | c :: rest, i => if sub.isPrefixOf (c :: rest) then some i else pyFindAux sub rest (i+1)

/-- Python `s.find(sub, start)` / `s.index(sub, start)`: the absolute index of
the first occurrence of `sub` at or after `start`, or `none` (Python: `-1`,
respectively `ValueError`). -/
def pyFind (s sub : Str) (start : Nat) : Option Nat :=
  (pyFindAux sub (s.drop start) 0).map (· + start)

/-- Python `sub in s` (substring containment test, non-empty `sub`). -/
def containsSub (s sub : Str) : Bool := (pyFind s sub 0).isSome

/-- Recursion core of Python `s.count(sub)`: number of non-overlapping
occurrences, scanning left to right.  `fuel` as in `pyReplaceFuel`. -/
def pyCountFuel (sub : Str) : Nat → Str → Nat
  | 0, _ => 0
  | fuel+1, s =>
    if sub ≠ [] ∧ sub.isPrefixOf s then
      pyCountFuel sub fuel (s.drop sub.length) + 1
    else
      match s with
      | [] => 0
      | _ :: rest => pyCountFuel sub fuel rest

/-- Python `s.count(sub)` for non-empty `sub`. -/
def pyCount (s sub : Str) : Nat := pyCountFuel sub (s.length + 1) s

/-- Python `s.split(sep)` for a single-character separator: splits at every
occurrence of `sep`, keeping empty pieces (so `''.split(' ') = ['']` and
`'x  x'.split(' ') = ['x', '', 'x']`). -/
def pySplitChar (sep : Char) : Str → List Str
  | [] => [[]]
  | c :: rest =>
    match pySplitChar sep rest with
    | [] => [[]]
    | w :: ws => if c = sep then [] :: w :: ws else (c :: w) :: ws

/-- The ASCII whitespace characters stripped by Python `str.rstrip()`
(the only whitespace occurring in this module's data). -/
def pyIsSpace (c : Char) : Bool :=
  c = ' ' || c = '\t' || c = '\n' || c = '\r' || c = '\x0b' || c = '\x0c'

/-- Python `s.rstrip()`. -/
def pyRstrip (s : Str) : Str := (s.reverse.dropWhile pyIsSpace).reverse

/-- Python `s.isdigit()`, restricted to the ASCII digits (the only digits the
module's data contains): non-empty and all characters in `'0'..'9'`. -/
def pyIsDigit (s : Str) : Bool := !s.isEmpty && s.all (fun c => '0' ≤ c && c ≤ '9')

/-- The lowercase/uppercase pairs of the basic Latin alphabet. -/
def upperPairs : List (Char × Char) :=
  (str "abcdefghijklmnopqrstuvwxyz").zip (str "ABCDEFGHIJKLMNOPQRSTUVWXYZ")

/-- Python `c.upper()` for a single character, restricted to the basic Latin
alphabet (all other characters are returned unchanged). -/
def pyUpper (c : Char) : Char := (upperPairs.lookup c).getD c

/-- Model of `unicodedata.name(c)` succeeding: C0 control characters (such as
TAB and LF) and DEL have no Unicode name and make `unicodedata.name` raise
`ValueError`; the printable characters used in this development all have
names. -/
def hasUnicodeName (c : Char) : Bool := 0x20 ≤ c.toNat && c.toNat != 0x7f

/-- Model of `'HEBREW' in unicodedata.name(c)`: the assigned code points of
the Unicode Hebrew block (U+0591..U+05C7, U+05D0..U+05EA, U+05EF..U+05F4) all
have names of the form `HEBREW ...`. -/
def unicodeNameHasHEBREW (c : Char) : Bool :=
  (0x591 ≤ c.toNat && c.toNat ≤ 0x5c7) ||
  (0x5d0 ≤ c.toNat && c.toNat ≤ 0x5ea) ||
  (0x5ef ≤ c.toNat && c.toNat ≤ 0x5f4)

/-- Model of `'GREEK' in unicodedata.name(c)`: the letters of the basic Greek
block (U+0391..U+03A1, U+03A3..U+03C9) all have names of the form
`GREEK ... LETTER ...`. -/
def unicodeNameHasGREEK (c : Char) : Bool :=
  (0x391 ≤ c.toNat && c.toNat ≤ 0x3a1) ||
  (0x3a3 ≤ c.toNat && c.toNat ≤ 0x3c9)

/-- Recursion core of the script-span search: the index (counted from `i`) of
the first character satisfying `p`.  Models the `for index, char in
enumerate(...)` loops of `transliterate_Hebrew` / `transliterate_Greek`,
where characters whose name lookup raises `ValueError` are skipped. -/
def firstIdxAux (p : Char → Bool) : Str → Nat → Option Nat
  | [], _ => none
  | c :: rest, i => if p c then some i else firstIdxAux p rest (i+1)

/-- Index of the first character of `s` satisfying `p` (`none` when there is
none). -/
def firstScriptIdx (p : Char → Bool) (s : Str) : Option Nat := firstIdxAux p s 0

/-- One transliteration rule: the script-specific source column (`hbo` for
Hebrew, `x-grc-koine` for Greek) and the `en` target column of one TSV row. -/
structure TsvRow where
  source : Str
  target : Str
deriving DecidableEq, Repr

/-- The per-record processing of the loader loop in
`load_transliteration_table`: `assert row[source_language_code]` (an empty or
missing source is an `AssertionError`), and `if row['en'] is None:
row['en'] = ''` (a `None` target defaults to the empty string).  The input
models the rows delivered by `DictReader`: the source-column value paired
with the optional `en` value. -/
def preprocessRows : List (Str × Option Str) → Except Fatal (List TsvRow)
  | [] => .ok []
  | (src, en) :: rest =>
    if src = [] then .error .assertionError
    else
      match preprocessRows rest with
      | .error e => .error e
      | .ok tail => .ok (⟨src, en.getD []⟩ :: tail)

/-- The sort order of `load_transliteration_table`:
`sorted(tsv_rows, key=lambda k: -len(k[source_language_code]))`, i.e.
descending length of the source value.  `rowLE a b` holds when `a` may come
before `b`. -/
def rowLE (a b : TsvRow) : Prop := b.source.length ≤ a.source.length

instance : DecidableRel rowLE := fun a b => Nat.decLe b.source.length a.source.length

instance : IsTotal TsvRow rowLE := ⟨fun a b => Nat.le_total b.source.length a.source.length⟩

instance : IsTrans TsvRow rowLE := ⟨fun _ _ _ h h2 => Nat.le_trans h2 h⟩

/-- Model of `load_transliteration_table` from the per-record loop onwards
(file access and TSV field parsing are external inputs, modelled by the
`rows` argument).  Per record: assert the source non-empty, default a `None`
target.  Then the duplicate check `len(source_set) < len(source_list)` (a
set is smaller than the list exactly when the list has a repeated element,
i.e. is not `Nodup`), whose failure ends in the bare name `halt` — a fatal
`NameError`, so no table is returned.  Finally the rows are sorted by
descending source length; Python's `sorted` is stable, which is modelled by
a stable insertion sort. -/
def load_transliteration_table (rows : List (Str × Option Str)) : Except Fatal (List TsvRow) :=
  match preprocessRows rows with
  | .error e => .error e
  | .ok processed =>
    if (processed.map TsvRow.source).Nodup then
      .ok (List.insertionSort rowLE processed)
    else .error .halt

/-- The Substitution Engine: for each rule in table order, replace every
non-overlapping occurrence of the source with the target
(`text.replace(row[src], row['en'])` folded over the loaded rows). -/
def substitute (tbl : List TsvRow) (s : Str) : Str :=
  tbl.foldl (fun acc row => pyReplaceAll acc row.source row.target) s

/-! ### The Hebrew post-processor (`transliterate_Hebrew`) -/

/-- The consonant set of the `'iy'` repair (`if nextChar in 'bdfghklmnpqrsştţvz'`). -/
def iyConsonants : Str := str "bdfghklmnpqrsştţvz"

/-- The `'iy'` repair loop of `transliterate_Hebrew`: up to 2000 iterations of
`index('iy', searchStartIndex)`; not finding `'iy'` (Python `ValueError`)
breaks, as does `'iy'` at the very end of the string (Python `IndexError` on
`s[ix+2]`); when the character after `'iy'` is in `iyConsonants` the `'y'` is
deleted; the search restarts at `ix + 2` either way.  Completing all 2000
iterations without a break reaches the bare name
`not_enough_loop_iterations_in_transliterateHebrew`: a fatal `NameError`. -/
def iyLoop : Nat → Nat → Str → Except Fatal Str
  | 0, _, _ => .error .iyNonConvergence
  | fuel+1, start, s =>
    match pyFind s (str "iy") start with
    | none => .ok s
    | some ix =>
      match s[ix+2]? with
      | none => .ok s
      | some nextChar =>
        let s' := if iyConsonants.contains nextChar then s.take (ix+1) ++ s.drop (ix+2) else s
        iyLoop fuel (ix+2) s'

/-- The `'iy'` repair pass (`for _safetyCount in range(2_000)`). -/
def hebIyPass (s : Str) : Except Fatal Str := iyLoop 2000 0 s

/-- The whole-span leading-dagesh repair: when the first two characters are
equal, drop the first (strings shorter than two characters are left alone —
Python catches the `IndexError`). -/
def leadingDupFix (s : Str) : Str :=
  match s with
  | a :: b :: rest => if a = b then b :: rest else a :: b :: rest
  | s => s

/-- The first word-splitting cleanup of `transliterate_Hebrew`
(line *cleanedTransliteratedHebrew*, before the doubling / final-cluster
repairs): replace `','`, `'.'`, `'-'`, the markup fragments `'htm#Top">'`,
`'htm">'` (by a space), `'</a>'` (by nothing), `'\n'`, then collapse triple
and double spaces (one replace pass each) and strip trailing whitespace. -/
def cleanedHeb1 (s : Str) : Str :=
  pyRstrip
    (pyReplaceAll
      (pyReplaceAll
        (pyReplaceAll
          (pyReplaceAll
            (pyReplaceAll
              (pyReplaceAll
                (pyReplaceAll
                  (pyReplaceAll
                    (pyReplaceAll s (str ",") (str " "))
                    (str ".") (str " "))
                  (str "-") (str " "))
                (str "htm#Top\">") (str " "))
              (str "htm\">") (str " "))
            (str "</a>") (str ""))
          (str "\n") (str " "))
        (str "   ") (str " "))
      (str "  ") (str " "))

/-- The final-cluster (`'ḩa'`) repair applied to the running transliterated
string `s` for a cleaned word `w` ending in `'ḩa'`: when `s` itself ends with
`w`, an unbounded `replace(w, w[:-2] + 'aḩ')`; otherwise a count-1
`replace(w + ' ', ..., 1)` followed by a count-1 `replace(w + '<', ..., 1)`. -/
def hebHaFix (s w : Str) : Str :=
  if w.isSuffixOf s then
    pyReplaceAll s w (w.take (w.length - 2) ++ str "aḩ")
  else
    pyReplace1
      (pyReplace1 s (w ++ str " ") (w.take (w.length - 2) ++ str "aḩ "))
      (w ++ str "<") (w.take (w.length - 2) ++ str "aḩ<")

/-- The per-word body of the first post-processing loop (word-initial
doubled-letter repair, then the final-`'ḩa'` repair), acting on the running
string `s` for the `cc`-th cleaned word `w`.  The empty word trips the
`assert cleanedTransliteratedHebrewWord` assertion; all-digit words and
single-character words are skipped.  A word whose first two characters are
equal is replaced by its tail: anywhere (count 1) for the first word, and
anchored behind `' '` or `'>'` (count 1 each) otherwise; the shortened word
is then used for the `'ḩa'` check. -/
def hebDupHaWord (cc : Nat) (s w : Str) : Except Fatal Str :=
  if w = [] then .error .assertionError
  else if pyIsDigit w then .ok s
  else if w.length < 2 then .ok s
  else
    match w with
    | a :: b :: rest =>
      let sw : Str × Str :=
        if a = b then
          (if cc = 0 then pyReplace1 s (a :: b :: rest) (b :: rest)
           else pyReplace1
                  (pyReplace1 s (' ' :: a :: b :: rest) (' ' :: b :: rest))
                  ('>' :: a :: b :: rest) ('>' :: b :: rest),
           b :: rest)
        else (s, a :: b :: rest)
      .ok (if (str "ḩa").isSuffixOf sw.2 then hebHaFix sw.1 sw.2 else sw.1)
    | _ => .ok s

/-- The first post-processing loop over the cleaned words. -/
def hebWordPass1Go : List Str → Nat → Str → Except Fatal Str
  | [], _, s => .ok s
  | w :: ws, cc, s =>
    match hebDupHaWord cc s w with
    | .error e => .error e
    | .ok s' => hebWordPass1Go ws (cc+1) s'

/-- The doubling / final-cluster repair pass: split the cleaned span into
words and run `hebDupHaWord` over them (the word list is derived once; the
substitutions run on the actual running string). -/
def hebWordPass1 (s : Str) : Except Fatal Str :=
  hebWordPass1Go (pySplitChar ' ' (cleanedHeb1 s)) 0 s

/-- The five post-condition assertions after the repairs: the running string
must not start with `'bb'`, `'dd'`, `'kk'` or `'tt'`, must not contain those
clusters behind `' '` or `'>'`, and must not contain `'ḩa '`, `'ḩa.'` or
`'ḩa<'`. -/
def hebAssertsPred (s : Str) : Bool :=
  !(str "bb").isPrefixOf s && !containsSub s (str " bb") && !containsSub s (str ">bb") &&
  !(str "dd").isPrefixOf s && !containsSub s (str " dd") && !containsSub s (str ">dd") &&
  !(str "kk").isPrefixOf s && !containsSub s (str " kk") && !containsSub s (str ">kk") &&
  !(str "tt").isPrefixOf s && !containsSub s (str " tt") && !containsSub s (str ">tt") &&
  !containsSub s (str "ḩa ") && !containsSub s (str "ḩa.") && !containsSub s (str "ḩa<")

/-- The assertion stage: an `AssertionError` when `hebAssertsPred` fails. -/
def hebAsserts (s : Str) : Except Fatal Str :=
  if hebAssertsPred s then .ok s else .error .assertionError

/-- The composition of the stages checked by the assertions: substitution,
the `'iy'` repair, the leading-dagesh repair and the per-word doubling /
final-cluster repairs, applied to the Hebrew span. -/
def hebRepairStages (tbl : List TsvRow) (hebrewInput : Str) : Except Fatal Str :=
  match hebIyPass (substitute tbl hebrewInput) with
  | .error e => .error e
  | .ok t1 => hebWordPass1 (leadingDupFix t1)

/-- `hebRepairStages` followed by the post-condition assertions. -/
def hebUpToAsserts (tbl : List TsvRow) (hebrewInput : Str) : Except Fatal Str :=
  match hebRepairStages tbl hebrewInput with
  | .error e => .error e
  | .ok t3 => hebAsserts t3

/-- The consonants accepted immediately before an elidable schwa
(`if prevChar1 in 'ʼˊbdfghḩkⱪlmnpqrsşštţʦvⱱyz'`). -/
def shwaConsonants : Str := str "ʼˊbdfghḩkⱪlmnpqrsşštţʦvⱱyz"

/-- The short vowels accepted two characters before an elidable schwa. -/
def shortVowels : Str := str "aeiou"

/-- The consonants whose doubled occurrence after an elided schwa is
collapsed (`if nextChar1 in 'dgkmqrʦy'`). -/
def dageshNext : Str := str "dgkmqrʦy"

/-- The schwa search-and-elide loop over one word `w` (with the running
string `s` updated alongside): up to six iterations of
`w.find('ə', searchStartIndex)`.  No more occurrences breaks; an occurrence
before index 2 only advances the search; otherwise, when the preceding
character is in `shwaConsonants` and the one before it is in `shortVowels`,
the schwa is deleted — together with the following character when that
character is in `dageshNext` and is immediately repeated — the deletion is
mirrored into `s` by an unbounded `replace(w, newWord)`, and the search
restarts at the deletion index.  Completing all six iterations without a
break reaches the bare name `not_enough_schwa_loops`: a fatal `NameError`. -/
def schwaLoop : Nat → Nat → Str → Str → Except Fatal (Str × Str)
  | 0, _, _, _ => .error .schwaNonConvergence
  | fuel+1, start, w, s =>
    match pyFind w (str "ə") start with
    | none => .ok (w, s)
    | some i =>
      if i < 2 then schwaLoop fuel (i+1) w s
      else
        let prevChar1 := w.getD (i-1) ' '
        let prevChar2 := w.getD (i-2) ' '
        let nextChar1 := (w[i+1]?).getD ' '
        let nextChar2 := w[i+2]?
        if shwaConsonants.contains prevChar1 && shortVowels.contains prevChar2 then
          let numLettersToDelete := if dageshNext.contains nextChar1 && nextChar2 = some nextChar1 then 2 else 1
          let newWord := w.take i ++ w.drop (i + numLettersToDelete)
          schwaLoop fuel i newWord (pyReplaceAll s w newWord)
        else schwaLoop fuel (i+1) w s

/-- The per-word body of the schwa pass: the empty word trips the assertion;
all-digit words, single-character words and words without `'ə'` are skipped;
otherwise the schwa loop runs with six iterations. -/
def hebSchwaWordStep (s w : Str) : Except Fatal Str :=
  if w = [] then .error .assertionError
  else if pyIsDigit w then .ok s
  else if w.length < 2 then .ok s
  else if !containsSub w (str "ə") then .ok s
  else
    match schwaLoop 6 0 w s with
    | .error e => .error e
    | .ok ws => .ok ws.2

/-- The schwa pass loop over the cleaned words. -/
def hebSchwaGo : List Str → Str → Except Fatal Str
  | [], s => .ok s
  | w :: ws, s =>
    match hebSchwaWordStep s w with
    | .error e => .error e
    | .ok s' => hebSchwaGo ws s'

/-- The second word-splitting cleanup (before the schwa pass): `','`, `'.'`,
`'\n'` become spaces, triple then double spaces are collapsed (one replace
pass each), trailing whitespace is stripped.  Unlike `cleanedHeb1` the
hyphen and the markup fragments are not treated. -/
def cleanedHeb2 (s : Str) : Str :=
  pyRstrip
    (pyReplaceAll
      (pyReplaceAll
        (pyReplaceAll
          (pyReplaceAll
            (pyReplaceAll s (str ",") (str " "))
            (str ".") (str " "))
          (str "\n") (str " "))
        (str "   ") (str " "))
      (str "  ") (str " "))

/-- The schwa elision pass: re-derive the words from the cleaned span and run
the schwa loop over each. -/
def hebSchwaPass (s : Str) : Except Fatal Str :=
  hebSchwaGo (pySplitChar ' ' (cleanedHeb2 s)) s

/-- The residual-script check shared by both post-processors: every character
other than `'\n'` has its Unicode name looked up — with no handler, so a
nameless character raises `ValueError` — and a name containing the script
marker reaches the bare-name crash
(`stop_so_we_can_fix_the_..._table`). -/
def scriptCheck (isScript : Char → Bool) : Str → Except Fatal Unit
  | [] => .ok ()
  | c :: rest =>
    if c = '\n' then scriptCheck isScript rest
    else if !hasUnicodeName c then .error .valueError
    else if isScript c then .error .residualScript
    else scriptCheck isScript rest

/-- The capitalisation step of `transliterate_Hebrew` (`capitaliseHebrew`):
special-case substitutions for `'ʦ'`, `'ₐ'`, `'ₑ'`, `'ⱱ'`, which have no
uppercase form, including behind a leading glottal `'ʼ'`/`'ˊ'`; otherwise the
first letter (or the letter after the glottal) is uppercased.  Indexing an
empty string raises `IndexError`; the final
`assert capitalisedHebrew != transliteratedHebrewInput` raises
`AssertionError` when nothing changed. -/
def hebCapitaliseGlottal (c0 : Char) : Str → Except Fatal Str
  | [] => .error .indexError
  | c1 :: rest2 =>
    if c1 = 'ʦ' then .ok (c0 :: (str "Ts" ++ rest2))
    else if c1 = 'ₐ' then .ok (c0 :: 'A' :: rest2)
    else if c1 = 'ₑ' then .ok (c0 :: 'E' :: rest2)
    else if c1 = 'ⱱ' then .ok (c0 :: 'V' :: rest2)
    else .ok (c0 :: pyUpper c1 :: rest2)

/-- The case split of the capitalisation step on the first character. -/
def hebCapitaliseCore (c0 : Char) (rest : Str) : Except Fatal Str :=
  if c0 = 'ʦ' then .ok (str "Ts" ++ rest)
  else if c0 = 'ₐ' then .ok ('A' :: rest)
  else if c0 = 'ₑ' then .ok ('E' :: rest)
  else if c0 = 'ⱱ' then .ok ('V' :: rest)
  else if c0 = 'ʼ' ∨ c0 = 'ˊ' then hebCapitaliseGlottal c0 rest
  else .ok (pyUpper c0 :: rest)

/-- The final `assert capitalisedHebrew != transliteratedHebrewInput` and the
`IndexError` on an empty string, wrapped around `hebCapitaliseCore`. -/
def hebCapitalise (t : Str) : Except Fatal Str :=
  match t with
  | [] => .error .indexError
  | c0 :: rest =>
    match hebCapitaliseCore c0 rest with
    | .error e => .error e
    | .ok capitalised =>
      if capitalised = c0 :: rest then .error .assertionError else .ok capitalised

/-- The span-level pipeline of `transliterate_Hebrew`: substitution, the
`'iy'`, leading-dagesh, doubling and final-cluster repairs, the
post-condition assertions, the schwa pass, the final `'š' → 'sh'`
replacement, and the residual-Hebrew check over the result. -/
def hebProcessSpan (tbl : List TsvRow) (hebrewInput : Str) : Except Fatal Str :=
  match hebUpToAsserts tbl hebrewInput with
  | .error e => .error e
  | .ok t4 =>
    match hebSchwaPass t4 with
    | .error e => .error e
    | .ok t5 =>
      match scriptCheck unicodeNameHasHEBREW (pyReplaceAll t5 (str "š") (str "sh")) with
      | .error e => .error e
      | .ok _ => .ok (pyReplaceAll t5 (str "š") (str "sh"))

/-- `transliterate_Hebrew(input, capitaliseHebrew)`, with the loaded rule
table passed explicitly (the Python function reads the module-level
`hebrew_tsv_rows`).  When no character of the input has a `HEBREW` name, the
input is returned unchanged (warning path).  Otherwise the span from the
first to just past the last such character (`input[first:past]`) is
substituted and post-processed, optionally capitalised, and spliced back
between the untouched prefix and suffix. -/
def transliterate_Hebrew (tbl : List TsvRow) (input : Str) (capitaliseHebrew : Bool) :
    Except Fatal Str :=
  match firstScriptIdx unicodeNameHasHEBREW input with
  | none => .ok input
  | some first_Hebrew_index =>
    match hebProcessSpan tbl
        ((input.take
            (input.length - (firstScriptIdx unicodeNameHasHEBREW input.reverse).getD 0)).drop
          first_Hebrew_index) with
    | .error e => .error e
    | .ok t6 =>
      if capitaliseHebrew then
        match hebCapitalise t6 with
        | .error e => .error e
        | .ok cap =>
          .ok (input.take first_Hebrew_index ++ cap ++
            input.drop (input.length - (firstScriptIdx unicodeNameHasHEBREW input.reverse).getD 0))
      else
        .ok (input.take first_Hebrew_index ++ t6 ++
          input.drop (input.length - (firstScriptIdx unicodeNameHasHEBREW input.reverse).getD 0))

/-! ### The Greek post-processor (`transliterate_Greek`) -/

/-- The semivowel repair of `transliterate_Greek`: when `'aui'` occurs in
`result[first_Greek_index:]`, that slice is rewritten by an unbounded
`replace('aui', 'awi')` and glued back after `result[:first_Greek_index]`. -/
def greekAuiFix (fgi : Nat) (s : Str) : Str :=
  if containsSub (s.drop fgi) (str "aui") then
    s.take fgi ++ pyReplaceAll (s.drop fgi) (str "aui") (str "awi")
  else s

/-- The initial `'ie'`/`'Ie'` repair of `transliterate_Greek`: when
`result[first_Greek_index:]` starts with `'ie'` (or `'Ie'`), those two
characters are replaced by `'ye'` (respectively `'Ye'`). -/
def greekIeFix (fgi : Nat) (s : Str) : Str :=
  if (str "ie").isPrefixOf (s.drop fgi) then s.take fgi ++ str "ye" ++ s.drop (fgi+2)
  else if (str "Ie").isPrefixOf (s.drop fgi) then s.take fgi ++ str "Ye" ++ s.drop (fgi+2)
  else s

/-- `transliterate_Greek(input)`, with the loaded rule table passed
explicitly (the Python function reads the module-level `greek_tsv_rows`).
When no character of the input has a `GREEK` name the input is returned
unchanged (warning path).  Otherwise the table substitution runs over the
entire input, the `'aui'` repair over the slice from the first Greek
character, then the whole result is checked for Greek left-overs, and
finally the initial `'ie'`/`'Ie'` repair is applied. -/
def transliterate_Greek (tbl : List TsvRow) (input : Str) : Except Fatal Str :=
  match firstScriptIdx unicodeNameHasGREEK input with
  | none => .ok input
  | some first_Greek_index =>
    match scriptCheck unicodeNameHasGREEK (greekAuiFix first_Greek_index (substitute tbl input)) with
    | .error e => .error e
    | .ok _ => .ok (greekIeFix first_Greek_index (greekAuiFix first_Greek_index (substitute tbl input)))

/-! ### The validator (`check_line`, `check_text`) -/

/-- The always-accepted punctuation/digit/quote characters of `check_line`. -/
def checkAllowed : Str := str " ʼ,.?!:;-–/\\1234567890“”‘’()¶…©"

/-- Recursion core of `check_line`: positions are counted from 1; characters
of the allow-list and characters with no Unicode name are skipped; the first
character whose name contains `GREEK` or `HEBREW` is reported. -/
def check_line_aux : Str → Nat → Option (Nat × Char)
  | [], _ => none
  | c :: rest, pos =>
    if checkAllowed.contains c then check_line_aux rest (pos+1)
    else if !hasUnicodeName c then check_line_aux rest (pos+1)
    else if unicodeNameHasGREEK c || unicodeNameHasHEBREW c then some (pos, c)
    else check_line_aux rest (pos+1)

/-- `check_line(line)`: `none` models the Python return value `True`; a
reported position/character pair models the offending tuple. -/
def check_line (line : Str) : Option (Nat × Char) := check_line_aux line 1

/-- `check_text(text)`: every newline-delimited line must pass
`check_line`. -/
def check_text (text : Str) : Bool :=
  (pySplitChar '\n' text).all (fun line => (check_line line).isNone)

/-! ### General lemmas about the embedded primitives -/

theorem firstIdxAux_eq_none {p : Char → Bool} :
    ∀ (s : Str) (i : Nat), firstIdxAux p s i = none → ∀ c ∈ s, p c = false := by
  intro s
  induction s with
  | nil => intro i _ c hc; cases hc
  | cons a rest ih =>
    intro i h c hc
    rw [firstIdxAux] at h
    by_cases hp : p a = true
    · simp [hp] at h
    · rw [if_neg (by simpa using hp)] at h
      rcases List.mem_cons.mp hc with rfl | hc'
      · simpa using hp
      · exact ih (i+1) h c hc'

theorem firstIdxAux_eq_some {p : Char → Bool} :
    ∀ (s : Str) (i j : Nat), firstIdxAux p s i = some j →
      i ≤ j ∧ j - i < s.length ∧ (∀ c ∈ s.take (j - i), p c = false) ∧ ∃ c ∈ s, p c = true := by
  intro s
  induction s with
  | nil => intro i j h; cases h
  | cons a rest ih =>
    intro i j h
    rw [firstIdxAux] at h
    by_cases hp : p a = true
    · rw [if_pos hp] at h
      obtain rfl : i = j := by simpa using h
      refine ⟨Nat.le_refl _, by simp, ?_, ⟨a, List.mem_cons_self a rest, hp⟩⟩
      intro c hc
      simp [Nat.sub_self] at hc
    · rw [if_neg (by simpa using hp)] at h
      obtain ⟨h1, h2, h3, cw, hcw, hpcw⟩ := ih (i+1) j h
      refine ⟨Nat.le_trans (Nat.le_succ i) h1,
        by simp only [List.length_cons]; omega, ?_, cw, List.mem_cons_of_mem a hcw, hpcw⟩
      intro c hc
      obtain ⟨k, hk⟩ : ∃ k, j - i = k + 1 := ⟨j - (i+1), by omega⟩
      rw [hk, List.take_succ_cons] at hc
      rcases List.mem_cons.mp hc with rfl | hc'
      · simpa using hp
      · exact h3 c (by rwa [show j - (i+1) = k by omega])

theorem scriptCheck_eq_ok {p : Char → Bool} :
    ∀ (s : Str), scriptCheck p s = .ok () → ∀ c ∈ s, c ≠ '\n' → p c = false := by
  intro s
  induction s with
  | nil => intro _ c hc; cases hc
  | cons a rest ih =>
    intro h c hc hnl
    rw [scriptCheck] at h
    by_cases ha : a = '\n'
    · rw [if_pos ha] at h
      rcases List.mem_cons.mp hc with rfl | hc'
      · exact absurd ha hnl
      · exact ih h c hc' hnl
    · rw [if_neg ha] at h
      by_cases hn : hasUnicodeName a = true
      · rw [if_neg (by simpa using hn)] at h
        by_cases hs : p a = true
        · rw [if_pos hs] at h; cases h
        · rw [if_neg hs] at h
          rcases List.mem_cons.mp hc with rfl | hc'
          · simpa using hs
          · exact ih h c hc' hnl
      · rw [if_pos (by simpa using hn)] at h; cases h

theorem unicodeNameHasHEBREW_newline : unicodeNameHasHEBREW '\n' = false := by decide

theorem unicodeNameHasGREEK_newline : unicodeNameHasGREEK '\n' = false := by decide

/-- Residual-check success means no character of the checked string is
classified as belonging to the script, for either script classifier. -/
theorem scriptCheck_hebrew_ok {s : Str} (h : scriptCheck unicodeNameHasHEBREW s = .ok ()) :
    ∀ c ∈ s, unicodeNameHasHEBREW c = false := by
  intro c hc
  by_cases hnl : c = '\n'
  · subst hnl; exact unicodeNameHasHEBREW_newline
  · exact scriptCheck_eq_ok s h c hc hnl

theorem scriptCheck_greek_ok {s : Str} (h : scriptCheck unicodeNameHasGREEK s = .ok ()) :
    ∀ c ∈ s, unicodeNameHasGREEK c = false := by
  intro c hc
  by_cases hnl : c = '\n'
  · subst hnl; exact unicodeNameHasGREEK_newline
  · exact scriptCheck_eq_ok s h c hc hnl

theorem upperPairs_not_script : ∀ pr ∈ upperPairs, unicodeNameHasHEBREW pr.2 = false := by decide

theorem pyUpper_hebrew {c : Char} (h : unicodeNameHasHEBREW (pyUpper c) = true) :
    unicodeNameHasHEBREW c = true := by
  rw [pyUpper] at h
  cases hl : upperPairs.lookup c with
  | none => rwa [hl, Option.getD_none] at h
  | some u =>
    rw [hl, Option.getD_some] at h
    obtain ⟨l1, l2, heq, -⟩ := List.lookup_eq_some_iff.mp hl
    have hmem : (c, u) ∈ upperPairs := by
      rw [heq]; exact List.mem_append_right _ (List.mem_cons_self _ _)
    have := upperPairs_not_script (c, u) hmem
    rw [this] at h
    cases h

theorem hebrew_Ts : ∀ x ∈ str "Ts", unicodeNameHasHEBREW x = false := by decide

theorem hebCapitaliseCore_no_residual {c0 : Char} {rest u : Str}
    (h : hebCapitaliseCore c0 rest = .ok u)
    (ht0 : unicodeNameHasHEBREW c0 = false)
    (htr : ∀ d ∈ rest, unicodeNameHasHEBREW d = false) :
    ∀ c ∈ u, unicodeNameHasHEBREW c = false := by
  intro c hc
  rw [hebCapitaliseCore.eq_def] at h
  split_ifs at h with h1 h2 h3 h4 h5
  · obtain rfl : str "Ts" ++ rest = u := by injection h
    rcases List.mem_append.mp hc with hc' | hc'
    · exact hebrew_Ts c hc'
    · exact htr c hc'
  · obtain rfl : 'A' :: rest = u := by injection h
    rcases List.mem_cons.mp hc with rfl | hc'
    · decide
    · exact htr c hc'
  · obtain rfl : 'E' :: rest = u := by injection h
    rcases List.mem_cons.mp hc with rfl | hc'
    · decide
    · exact htr c hc'
  · obtain rfl : 'V' :: rest = u := by injection h
    rcases List.mem_cons.mp hc with rfl | hc'
    · decide
    · exact htr c hc'
  · match rest, htr, hc, h with
    | [], htr, hc, h => rw [hebCapitaliseGlottal] at h; cases h
    | c1 :: rest2, htr, hc, h =>
      have ht1 : unicodeNameHasHEBREW c1 = false := htr c1 (List.mem_cons_self _ _)
      have htr2 : ∀ d ∈ rest2, unicodeNameHasHEBREW d = false :=
        fun d hd => htr d (List.mem_cons_of_mem _ hd)
      rw [hebCapitaliseGlottal] at h
      split_ifs at h with g1 g2 g3 g4
      · obtain rfl : c0 :: (str "Ts" ++ rest2) = u := by injection h
        rcases List.mem_cons.mp hc with rfl | hc'
        · exact ht0
        · rcases List.mem_append.mp hc' with hc'' | hc''
          · exact hebrew_Ts c hc''
          · exact htr2 c hc''
      · obtain rfl : c0 :: 'A' :: rest2 = u := by injection h
        rcases List.mem_cons.mp hc with rfl | hc'
        · exact ht0
        · rcases List.mem_cons.mp hc' with rfl | hc''
          · decide
          · exact htr2 c hc''
      · obtain rfl : c0 :: 'E' :: rest2 = u := by injection h
        rcases List.mem_cons.mp hc with rfl | hc'
        · exact ht0
        · rcases List.mem_cons.mp hc' with rfl | hc''
          · decide
          · exact htr2 c hc''
      · obtain rfl : c0 :: 'V' :: rest2 = u := by injection h
        rcases List.mem_cons.mp hc with rfl | hc'
        · exact ht0
        · rcases List.mem_cons.mp hc' with rfl | hc''
          · decide
          · exact htr2 c hc''
      · obtain rfl : c0 :: pyUpper c1 :: rest2 = u := by injection h
        rcases List.mem_cons.mp hc with rfl | hc'
        · exact ht0
        · rcases List.mem_cons.mp hc' with rfl | hc''
          · by_contra hcon
            exact absurd (pyUpper_hebrew (by simpa using hcon)) (by simp [ht1])
          · exact htr2 c hc''
  · obtain rfl : pyUpper c0 :: rest = u := by injection h
    rcases List.mem_cons.mp hc with rfl | hc'
    · by_contra hcon
      exact absurd (pyUpper_hebrew (by simpa using hcon)) (by simp [ht0])
    · exact htr c hc'

theorem hebCapitalise_no_residual {t u : Str} (h : hebCapitalise t = .ok u)
    (ht : ∀ c ∈ t, unicodeNameHasHEBREW c = false) :
    ∀ c ∈ u, unicodeNameHasHEBREW c = false := by
  match t with
  | [] => rw [hebCapitalise] at h; cases h
  | c0 :: rest =>
    have ht0 : unicodeNameHasHEBREW c0 = false := ht c0 (List.mem_cons_self _ _)
    have htr : ∀ d ∈ rest, unicodeNameHasHEBREW d = false :=
      fun d hd => ht d (List.mem_cons_of_mem _ hd)
    rw [hebCapitalise] at h
    split at h
    · cases h
    · rename_i capitalised hbr
      split at h
      · cases h
      · obtain rfl : capitalised = u := by injection h
        exact hebCapitaliseCore_no_residual hbr ht0 htr

theorem mem_drop_rev {s : Str} {k : Nat} (hk : k ≤ s.length) {c : Char}
    (hc : c ∈ s.drop (s.length - k)) : c ∈ s.reverse.take k := by
  have h1 : (s.drop (s.length - k)).reverse = s.reverse.take (s.length - (s.length - k)) :=
    List.reverse_drop
  rw [Nat.sub_sub_self hk] at h1
  rw [← h1]
  exact List.mem_reverse.mpr hc

theorem greek_ye : ∀ x ∈ str "ye", unicodeNameHasGREEK x = false := by decide

theorem greek_Ye : ∀ x ∈ str "Ye", unicodeNameHasGREEK x = false := by decide

theorem greekIeFix_no_residual {fgi : Nat} {s : Str}
    (hs : ∀ c ∈ s, unicodeNameHasGREEK c = false) :
    ∀ c ∈ greekIeFix fgi s, unicodeNameHasGREEK c = false := by
  intro c hc
  rw [greekIeFix] at hc
  split_ifs at hc with h1 h2
  · rcases List.mem_append.mp hc with hc' | hc'
    · rcases List.mem_append.mp hc' with hc'' | hc''
      · exact hs c (List.take_subset _ _ hc'')
      · exact greek_ye c hc''
    · exact hs c (List.drop_subset _ _ hc')
  · rcases List.mem_append.mp hc with hc' | hc'
    · rcases List.mem_append.mp hc' with hc'' | hc''
      · exact hs c (List.take_subset _ _ hc'')
      · exact greek_Ye c hc''
    · exact hs c (List.drop_subset _ _ hc')
  · exact hs c hc

theorem hebProcessSpan_no_residual {tbl : List TsvRow} {h0 t6 : Str}
    (h : hebProcessSpan tbl h0 = .ok t6) : ∀ c ∈ t6, unicodeNameHasHEBREW c = false := by
  rw [hebProcessSpan.eq_def] at h
  split at h
  · cases h
  · split at h
    · cases h
    · split at h
      · cases h
      · rename_i unitv hChk
        obtain rfl := (Except.ok.injEq _ _).mp h
        cases unitv
        exact scriptCheck_hebrew_ok hChk

/-! ### Claim C1 -/

/-- C1, amended: for every input accepted by a post-processor, no character
of the post-processor's *own* script survives anywhere in the output
(`transliterate_Hebrew` leaves no character whose Unicode name contains
`HEBREW`; `transliterate_Greek` leaves none whose name contains `GREEK`).
The original claim — that `check_text` accepts the output, i.e. that no
character of *either* script survives — is refuted by
`C1_counterexample`: characters of the other script outside the processed
scope pass through untouched. -/
theorem C1_no_residual_own_script :
    (∀ (tbl : List TsvRow) (input : Str) (cap : Bool) (out : Str),
        transliterate_Hebrew tbl input cap = .ok out →
        ∀ c ∈ out, unicodeNameHasHEBREW c = false) ∧
    (∀ (tbl : List TsvRow) (input out : Str),
        transliterate_Greek tbl input = .ok out →
        ∀ c ∈ out, unicodeNameHasGREEK c = false) := by
  constructor
  · intro tbl input cap out h c hc
    rw [transliterate_Hebrew.eq_def] at h
    split at h
    · rename_i heq
      obtain rfl : input = out := by injection h
      rw [firstScriptIdx] at heq
      exact firstIdxAux_eq_none input 0 heq c hc
    · rename_i fgi heq
      rw [firstScriptIdx] at heq
      obtain ⟨-, hlt, hpre, cw, hcw, hpcw⟩ := firstIdxAux_eq_some input 0 fgi heq
      rw [Nat.sub_zero] at hlt hpre
      have hsuf : ∀ d ∈ input.drop
          (input.length - (firstScriptIdx unicodeNameHasHEBREW input.reverse).getD 0),
          unicodeNameHasHEBREW d = false := by
        intro d hd
        cases hrev : firstScriptIdx unicodeNameHasHEBREW input.reverse with
        | none =>
          rw [firstScriptIdx] at hrev
          exact absurd (firstIdxAux_eq_none input.reverse 0 hrev cw
            (List.mem_reverse.mpr hcw)) (by simp [hpcw])
        | some k =>
          rw [hrev] at hd
          rw [firstScriptIdx] at hrev
          obtain ⟨-, hklt, hkpre, -⟩ := firstIdxAux_eq_some input.reverse 0 k hrev
          rw [Nat.sub_zero, List.length_reverse] at hklt
          rw [Nat.sub_zero] at hkpre
          exact hkpre d (mem_drop_rev (Nat.le_of_lt hklt) hd)
      split at h
      · cases h
      · rename_i t6 hPS
        have hmid := hebProcessSpan_no_residual hPS
        split at h
        · split at h
          · cases h
          · rename_i cap' hCap
            obtain rfl := (Except.ok.injEq _ _).mp h
            rcases List.mem_append.mp hc with hc1 | hc2
            · rcases List.mem_append.mp hc1 with hc3 | hc4
              · exact hpre c hc3
              · exact hebCapitalise_no_residual hCap hmid c hc4
            · exact hsuf c hc2
        · obtain rfl := (Except.ok.injEq _ _).mp h
          rcases List.mem_append.mp hc with hc1 | hc2
          · rcases List.mem_append.mp hc1 with hc3 | hc4
            · exact hpre c hc3
            · exact hmid c hc4
          · exact hsuf c hc2
  · intro tbl input out h c hc
    rw [transliterate_Greek.eq_def] at h
    split at h
    · rename_i heq
      obtain rfl : input = out := by injection h
      rw [firstScriptIdx] at heq
      exact firstIdxAux_eq_none input 0 heq c hc
    · rename_i fgi heq
      split at h
      · cases h
      · rename_i unitv hChk
        obtain rfl := (Except.ok.injEq _ _).mp h
        have hr2 : ∀ d ∈ greekAuiFix fgi (substitute tbl input),
            unicodeNameHasGREEK d = false := by
          cases unitv
          exact scriptCheck_greek_ok hChk
        exact greekIeFix_no_residual hr2 c hc

/-- C1, refutation of the claim as stated: the input `"Γא"` is accepted by
`transliterate_Hebrew` under the one-rule table `א ↦ x` (the Greek capital
gamma lies before the Hebrew span and the final check only inspects the
span for Hebrew names), yet `check_text` rejects the output `"Γx"` because
the gamma's Unicode name contains `GREEK`. -/
theorem C1_counterexample :
    transliterate_Hebrew [⟨str "א", str "x"⟩] (str "Γא") false = .ok (str "Γx") ∧
    check_text (str "Γx") = false := ⟨rfl, rfl⟩

/-- Witness for C1: the amended theorem applied to the accepted runs
`transliterate_Hebrew (א ↦ x) "Γא" = ok "Γx"` and
`transliterate_Greek (Γ ↦ G) "Γ aui" = ok "G awi"`. -/
theorem C1_witness :
    (∀ c ∈ str "Γx", unicodeNameHasHEBREW c = false) ∧
    (∀ c ∈ str "G awi", unicodeNameHasGREEK c = false) :=
  ⟨C1_no_residual_own_script.1 [⟨str "א", str "x"⟩] (str "Γא") false (str "Γx") rfl,
   C1_no_residual_own_script.2 [⟨str "Γ", str "G"⟩] (str "Γ aui") (str "G awi") rfl⟩

/-! ### Claim C9 -/

/-- C9: the final residual-script check is not total.  Under the one-rule
tables `א ↦ x` (respectively `Γ ↦ g`), the inputs `"א\tא"` and `"Γ\tΓ"` carry
a TAB between the script code points; the TAB survives all passes, and the
final check calls `unicodedata.name` on it with no handler, so both
post-processors end in an uncaught `ValueError` instead of returning a
result or signalling one of the documented fatal error kinds. -/
theorem C9_unnamed_char_value_error :
    transliterate_Hebrew [⟨str "א", str "x"⟩] (str "א\tא") false = .error .valueError ∧
    transliterate_Greek [⟨str "Γ", str "g"⟩] (str "Γ\tΓ") = .error .valueError := ⟨rfl, rfl⟩

/-! ### Claim C10 -/

/-- C10: `transliterate_Hebrew` is not total over long space runs.  Under the
one-rule table `א ↦ x`, the input `"א     א"` (five spaces between the two
Hebrew letters) is substituted to `"x     x"`; the cleanup collapses triple
then double spaces in one replace pass each, leaving the double space of
`"x  x"`, so the split on single spaces yields the empty word and the
non-empty-word assertion raises `AssertionError`. -/
theorem C10_five_spaces_assertion :
    cleanedHeb1 (str "x     x") = str "x  x" ∧
    (str "") ∈ pySplitChar ' ' (str "x  x") ∧
    transliterate_Hebrew [⟨str "א", str "x"⟩] (str "א     א") false = .error .assertionError :=
  ⟨rfl, by decide, rfl⟩

/-! ### Loader lemmas -/

theorem preprocessRows_eq_ok {rows : List (Str × Option Str)} {pr : List TsvRow}
    (h : preprocessRows rows = .ok pr) :
    pr = rows.map (fun p => TsvRow.mk p.1 (p.2.getD [])) := by
  induction rows generalizing pr with
  | nil =>
    rw [preprocessRows] at h
    obtain rfl := (Except.ok.injEq _ _).mp h
    rfl
  | cons a rest ih =>
    obtain ⟨src, en⟩ := a
    rw [preprocessRows] at h
    split_ifs at h with hsrc
    split at h
    · cases h
    · rename_i tail hrec
      obtain rfl := (Except.ok.injEq _ _).mp h.symm
      rw [List.map_cons, ih hrec]

theorem filter_orderedInsert_pos {r : TsvRow → TsvRow → Prop} [DecidableRel r]
    (p : TsvRow → Bool) (x : TsvRow) (hx : p x = true)
    (hall : ∀ y, p y = true → r x y) :
    ∀ l, (List.orderedInsert r x l).filter p = x :: l.filter p := by
  intro l
  induction l with
  | nil => simp [List.orderedInsert, hx]
  | cons y ys ih =>
    rw [List.orderedInsert]
    by_cases hr : r x y
    · rw [if_pos hr, List.filter_cons, if_pos hx]
    · rw [if_neg hr]
      have hpy : p y = false := by
        by_contra hcon
        exact hr (hall y (by simpa using hcon))
      rw [List.filter_cons, if_neg (by simp [hpy]), ih,
        List.filter_cons, if_neg (by simp [hpy])]

theorem filter_orderedInsert_neg {r : TsvRow → TsvRow → Prop} [DecidableRel r]
    (p : TsvRow → Bool) (x : TsvRow) (hx : p x = false) :
    ∀ l, (List.orderedInsert r x l).filter p = l.filter p := by
  intro l
  induction l with
  | nil => simp [List.orderedInsert, hx]
  | cons y ys ih =>
    rw [List.orderedInsert]
    by_cases hr : r x y
    · rw [if_pos hr, List.filter_cons, if_neg (by simp [hx])]
    · rw [if_neg hr, List.filter_cons, ih, List.filter_cons]

/-- Stability of the loader's sort, stated through filters: the rows whose
source has any fixed length appear in the sorted table in exactly their
original relative order. -/
theorem filter_insertionSort_len (L : Nat) :
    ∀ l : List TsvRow,
      (List.insertionSort rowLE l).filter (fun row => row.source.length == L)
        = l.filter (fun row => row.source.length == L) := by
  intro l
  induction l with
  | nil => rfl
  | cons x xs ih =>
    rw [List.insertionSort]
    by_cases hx : x.source.length = L
    · rw [filter_orderedInsert_pos _ x (by simpa using hx)
        (fun y hy => by
          rw [rowLE, show y.source.length = L by simpa using hy, hx]),
        ih, List.filter_cons, if_pos (by simpa using hx)]
    · rw [filter_orderedInsert_neg _ x (by simpa using hx), ih,
        List.filter_cons, if_neg (by simpa using hx)]

/-! ### Claim C3 -/

/-- C3, amended: a backing table with two rows sharing the same source value
logs the critical duplicate diagnostics and then executes the bare name
`halt` — a fatal `NameError`.  The function does *not* return normally and
no table is produced (the module-level table variable is assigned only after
this check). -/
theorem C3_duplicate_halts (rows : List (Str × Option Str)) (processed : List TsvRow)
    (hpre : preprocessRows rows = .ok processed)
    (hdup : ¬ (processed.map TsvRow.source).Nodup) :
    load_transliteration_table rows = .error .halt := by
  rw [load_transliteration_table.eq_def, hpre]
  exact if_neg hdup

/-- C3, refutation of the claim as stated: on a duplicated source the loader
ends in the fatal `halt`, not in a normal return of a usable table. -/
theorem C3_counterexample :
    load_transliteration_table [(str "a", some (str "b")), (str "a", some (str "c"))]
      = .error .halt := rfl

/-- Witness for C3: the amended theorem applied to a three-row table whose
first and third rows share the source `"x"`. -/
theorem C3_witness :
    load_transliteration_table [(str "x", none), (str "y", none), (str "x", none)]
      = .error .halt :=
  C3_duplicate_halts _ [⟨str "x", str ""⟩, ⟨str "y", str ""⟩, ⟨str "x", str ""⟩]
    rfl (by decide)

/-! ### Claim C4 -/

/-- C4: `load_transliteration_table` returns the rows sorted by descending
code-point length of the source value, and the sort is stable: for every
length `L`, the rows of source length `L` appear in the output in exactly
their original file order. -/
theorem C4_sorted_stable (rows : List (Str × Option Str)) (tbl : List TsvRow)
    (h : load_transliteration_table rows = .ok tbl) :
    tbl.Pairwise (fun a b => b.source.length ≤ a.source.length) ∧
    ∀ L : Nat, tbl.filter (fun row => row.source.length == L)
      = (rows.map (fun p => TsvRow.mk p.1 (p.2.getD []))).filter
          (fun row => row.source.length == L) := by
  rw [load_transliteration_table.eq_def] at h
  split at h
  · cases h
  · rename_i processed hpre
    split_ifs at h with hnd
    obtain rfl := (Except.ok.injEq _ _).mp h
    refine ⟨List.sorted_insertionSort rowLE processed, fun L => ?_⟩
    rw [filter_insertionSort_len, preprocessRows_eq_ok hpre]

/-- Witness for C4: the sortedness-and-stability theorem applied to a
three-row table with source lengths 2, 1, 2; the two length-2 rows keep
their original relative order. -/
theorem C4_witness :
    ([⟨str "ab", str "1"⟩, ⟨str "de", str "3"⟩, ⟨str "c", str "2"⟩] :
        List TsvRow).Pairwise (fun a b => b.source.length ≤ a.source.length) ∧
    ([⟨str "ab", str "1"⟩, ⟨str "de", str "3"⟩, ⟨str "c", str "2"⟩] :
        List TsvRow).filter (fun row => row.source.length == 2)
      = ([(str "ab", some (str "1")), (str "c", some (str "2")),
          (str "de", some (str "3"))].map
            (fun p => TsvRow.mk p.1 (p.2.getD []))).filter
          (fun row => row.source.length == 2) :=
  ⟨(C4_sorted_stable [(str "ab", some (str "1")), (str "c", some (str "2")),
      (str "de", some (str "3"))] _ rfl).1,
   (C4_sorted_stable [(str "ab", some (str "1")), (str "c", some (str "2")),
      (str "de", some (str "3"))] _ rfl).2 2⟩

/-! ### Claim C2 -/

/-- C2, amended: in every loaded table, a rule whose source is a proper
prefix of another rule's source comes strictly *after* it, so the longer
rule's whole-source replacement pass runs over the text first; in
particular, in an interference-free table (such as the two-rule table
`ab ↦ Y`, `a ↦ Q`) an occurrence of the longer source is consumed whole and
no partial rendering by the shorter rule remains.  The unqualified claim —
that the full source of the longer rule is always consumed and no partial
rendering ever appears — fails when a third rule's earlier pass overlaps the
occurrence (`C2_counterexample`). -/
theorem C2_longest_first_order :
    (∀ (rows : List (Str × Option Str)) (tbl : List TsvRow),
        load_transliteration_table rows = .ok tbl →
        ∀ (i j : Fin tbl.length),
          (tbl.get i).source ≠ (tbl.get j).source →
          (tbl.get i).source <+: (tbl.get j).source →
          (j : Nat) < (i : Nat)) ∧
    substitute [⟨str "ab", str "Y"⟩, ⟨str "a", str "Q"⟩] (str "zabz") = str "zYz" := by
  constructor
  · intro rows tbl h i j hne hpre
    have hpw : tbl.Pairwise rowLE := by
      rw [load_transliteration_table.eq_def] at h
      split at h
      · cases h
      · rename_i processed hproc
        split_ifs at h with hnd
        obtain rfl := (Except.ok.injEq _ _).mp h
        exact List.sorted_insertionSort rowLE processed
    have hlen : (tbl.get i).source.length < (tbl.get j).source.length := by
      rcases Nat.lt_or_ge (tbl.get i).source.length (tbl.get j).source.length with hlt | hge
      · exact hlt
      · exact absurd (hpre.eq_of_length (Nat.le_antisymm hpre.length_le hge)) hne
    by_contra hcon
    rcases Nat.lt_or_ge (i : Nat) (j : Nat) with hij | hij
    · have := (List.pairwise_iff_get.mp hpw) i j (Fin.mk_lt_mk.mpr hij)
      rw [rowLE] at this
      omega
    · have : (i : Nat) = (j : Nat) := by omega
      exact hne (by rw [Fin.eq_of_val_eq this])
  · rfl

/-- C2, refutation of the claim as stated: the three-rule table
`bz ↦ (empty)`, `ab ↦ Y`, `a ↦ Q` loads unchanged (it is already sorted by
descending source length, sources are unique and non-empty).  `"a"` is a
proper prefix of `"ab"` and the input `"abz"` contains the occurrence of
`"ab"`, yet the engine yields `"Q"`: the earlier equal-length rule `bz`
consumed the `b`, the full source `"ab"` was never consumed by its own rule
(`Y` is absent from the output), and only the shorter rule's rendering `Q`
of the prefix `a` remains. -/
theorem C2_counterexample :
    load_transliteration_table
        [(str "bz", some (str "")), (str "ab", some (str "Y")), (str "a", some (str "Q"))]
      = .ok [⟨str "bz", str ""⟩, ⟨str "ab", str "Y"⟩, ⟨str "a", str "Q"⟩] ∧
    containsSub (str "abz") (str "ab") = true ∧
    substitute [⟨str "bz", str ""⟩, ⟨str "ab", str "Y"⟩, ⟨str "a", str "Q"⟩] (str "abz")
      = str "Q" ∧
    containsSub (str "Q") (str "Y") = false := ⟨rfl, rfl, rfl, rfl⟩

/-- Witness for C2: in the loaded table `[bz ↦ ∅, ab ↦ Y, a ↦ Q]`, rule
`a` (position 2) has its source a proper prefix of rule `ab`'s source
(position 1), and the order theorem places `ab` strictly before `a`. -/
theorem C2_witness : (1 : Nat) < 2 :=
  C2_longest_first_order.1
    [(str "bz", some (str "")), (str "ab", some (str "Y")), (str "a", some (str "Q"))]
    [⟨str "bz", str ""⟩, ⟨str "ab", str "Y"⟩, ⟨str "a", str "Q"⟩] rfl
    ⟨2, by decide⟩ ⟨1, by decide⟩ (by decide) (by decide)

/-! ### Claim C6 -/

/-- C6, amended: after the `'iy'`, leading-dagesh, per-word doubling and
final-cluster repairs, the running span satisfies exactly the asserted
conditions — it does not start with `'bb'`, `'dd'`, `'kk'`, `'tt'`, contains
none of those clusters behind `' '` or `'>'`, and contains none of `'ḩa '`,
`'ḩa.'`, `'ḩa<'` — and any violation of these conditions is a fatal
`AssertionError`.  The original claim — no word preceded by *any* separator
begins with a doubled cluster, and `'ḩa'` remains at the end of *no* word —
is refuted by `C6_counterexample`: a word behind `'-'` keeps its doubled
`'bb'` and passes the assertions. -/
theorem C6_asserted_clusters :
    (∀ (tbl : List TsvRow) (hebrewInput u : Str),
        hebUpToAsserts tbl hebrewInput = .ok u → hebAssertsPred u = true) ∧
    (∀ (tbl : List TsvRow) (hebrewInput u : Str),
        hebRepairStages tbl hebrewInput = .ok u → hebAssertsPred u = false →
        hebUpToAsserts tbl hebrewInput = .error .assertionError) := by
  constructor
  · intro tbl h0 u h
    rw [hebUpToAsserts] at h
    split at h
    · cases h
    · rename_i t3 hrep
      rw [hebAsserts] at h
      split_ifs at h with hp
      obtain rfl := (Except.ok.injEq _ _).mp h
      exact hp
  · intro tbl h0 u hrep hfail
    rw [hebUpToAsserts, hrep]
    show hebAsserts u = .error .assertionError
    rw [hebAsserts]
    exact if_neg (by simp [hfail])

/-- C6, refutation of the claim as stated: under the one-rule table
`א ↦ x-bba` the input `"א"` is accepted and returns `"x-bba"` unchanged: the
cleanup turns the `'-'` into a word boundary, so `"bba"` *is* a word of the
span and begins with the doubled cluster `'bb'`, but the per-word repair only
anchors at `' '` and `'>'` and the assertions only check those anchors, so
nothing repairs it and no fatal error is raised. -/
theorem C6_counterexample :
    transliterate_Hebrew [⟨str "א", str "x-bba"⟩] (str "א") false = .ok (str "x-bba") ∧
    (str "bba") ∈ pySplitChar ' ' (cleanedHeb1 (str "x-bba")) ∧
    (str "bb").isPrefixOf (str "bba") = true := ⟨rfl, by decide, rfl⟩

/-- Witness for C6: the amended theorem applied to the accepted run
`hebUpToAsserts (א ↦ x) "א" = ok "x"`, and to the run
`hebUpToAsserts (א ↦ a>bba) "א"`, whose repaired span `"a>bba"` violates the
asserted conditions and ends in the fatal `AssertionError`. -/
theorem C6_witness :
    hebAssertsPred (str "x") = true ∧
    hebUpToAsserts [⟨str "א", str "a>bba"⟩] (str "א") = .error .assertionError :=
  ⟨C6_asserted_clusters.1 [⟨str "א", str "x"⟩] (str "א") (str "x") rfl,
   C6_asserted_clusters.2 [⟨str "א", str "a>bba"⟩] (str "א") (str "a>bba") rfl rfl⟩

/-! ### Claim C7 -/

theorem containsSub_nil (sub : Str) : containsSub [] sub = false := rfl

theorem take_greekAuiFix (fgi : Nat) (s : Str) :
    (greekAuiFix fgi s).take fgi = s.take fgi := by
  rw [greekAuiFix]
  split_ifs with hctn
  · have hne : s.drop fgi ≠ [] := by
      intro hnil
      rw [hnil, containsSub_nil] at hctn
      cases hctn
    have hlen : fgi ≤ s.length := by
      by_contra hcon
      exact hne (List.drop_eq_nil_iff.mpr (Nat.le_of_lt (Nat.lt_of_not_le hcon)))
    rw [List.take_append_eq_append_take, List.take_take, Nat.min_self,
      List.length_take_of_le hlen, Nat.sub_self, List.take_zero, List.append_nil]
  · rfl

theorem take_greekIeFix (fgi : Nat) (s : Str) :
    (greekIeFix fgi s).take fgi = s.take fgi := by
  have hstep : ∀ tail : Str, fgi ≤ s.length →
      (s.take fgi ++ tail).take fgi = s.take fgi := by
    intro tail hlen
    rw [List.take_append_eq_append_take, List.take_take, Nat.min_self,
      List.length_take_of_le hlen, Nat.sub_self, List.take_zero, List.append_nil]
  rw [greekIeFix]
  split_ifs with h1 h2
  · have hne : s.drop fgi ≠ [] := by
      intro hnil
      rw [hnil] at h1
      cases h1
    rw [List.append_assoc]
    exact hstep _ (by
      by_contra hcon
      exact hne (List.drop_eq_nil_iff.mpr (Nat.le_of_lt (Nat.lt_of_not_le hcon))))
  · have hne : s.drop fgi ≠ [] := by
      intro hnil
      rw [hnil] at h2
      cases h2
    rw [List.append_assoc]
    exact hstep _ (by
      by_contra hcon
      exact hne (List.drop_eq_nil_iff.mpr (Nat.le_of_lt (Nat.lt_of_not_le hcon))))
  · rfl

/-- C7, amended: the `'aui' → 'awi'` repair (and the subsequent `'ie'`
repair) modifies only `result[first_Greek_index:]`, where
`first_Greek_index` is the index of the first Greek code point *of the
input*: the first `first_Greek_index` characters of the substituted string
are returned unchanged.  The original claim — that the text after the last
Greek code point is also unmodified — is refuted by `C7_counterexample`: the
repaired slice extends to the end of the string, past the last Greek code
point. -/
theorem C7_aui_frame (tbl : List TsvRow) (input : Str) (fgi : Nat) (out : Str)
    (hfgi : firstScriptIdx unicodeNameHasGREEK input = some fgi)
    (h : transliterate_Greek tbl input = .ok out) :
    out.take fgi = (substitute tbl input).take fgi := by
  rw [transliterate_Greek.eq_def] at h
  split at h
  · rename_i heq
    rw [heq] at hfgi
    cases hfgi
  · rename_i fgi' heq
    obtain rfl : fgi' = fgi := Option.some.inj (heq.symm.trans hfgi)
    split at h
    · cases h
    · obtain rfl := (Except.ok.injEq _ _).mp h
      rw [take_greekIeFix, take_greekAuiFix]

/-- C7, refutation of the claim as stated: under the table `Γ ↦ G` the input
`"Γ aui"` has its only Greek code point at index 0, so `" aui"` lies entirely
after the last Greek code point; the substitution alone gives `"G aui"`, but
the function returns `"G awi"`: the `'aui'` repair modified the portion
outside the Greek span. -/
theorem C7_counterexample :
    transliterate_Greek [⟨str "Γ", str "G"⟩] (str "Γ aui") = .ok (str "G awi") ∧
    substitute [⟨str "Γ", str "G"⟩] (str "Γ aui") = str "G aui" ∧
    (∀ c ∈ (str "Γ aui").drop 1, unicodeNameHasGREEK c = false) ∧
    (str "G awi").drop 1 ≠ (str "G aui").drop 1 :=
  ⟨rfl, rfl, by decide, by decide⟩

/-- Witness for C7: the frame theorem applied to the accepted run
`transliterate_Greek (Γ ↦ G) "xΓaui" = ok "xGawi"`, whose first Greek code
point sits at index 1. -/
theorem C7_witness :
    (str "xGawi").take 1 = (substitute [⟨str "Γ", str "G"⟩] (str "xΓaui")).take 1 :=
  C7_aui_frame [⟨str "Γ", str "G"⟩] (str "xΓaui") 1 (str "xGawi") rfl rfl

/-! ### Claim C8 -/

theorem pyReplaceNFuel_zero (old new : Str) (fuel : Nat) (s : Str) :
    pyReplaceNFuel old new fuel 0 s = s := by
  cases fuel <;> rfl

theorem pyReplaceNFuel_succ_one (old new : Str) (fuel : Nat) (s : Str) :
    pyReplaceNFuel old new (fuel+1) 1 s =
      if old ≠ [] ∧ old.isPrefixOf s then
        new ++ pyReplaceNFuel old new fuel 0 (s.drop old.length)
      else
        match s with
        | [] => []
        | c :: rest => c :: pyReplaceNFuel old new fuel 1 rest := rfl

theorem pyReplaceNFuel_one_spec (old new : Str) (hold : old ≠ []) :
    ∀ (fuel : Nat) (s : Str), s.length < fuel →
      pyReplaceNFuel old new fuel 1 s = s ∨
      ∃ pre post, s = pre ++ old ++ post ∧
        pyReplaceNFuel old new fuel 1 s = pre ++ new ++ post := by
  intro fuel
  induction fuel with
  | zero => intro s hs; cases hs
  | succ fuel ih =>
    intro s hs
    rw [pyReplaceNFuel_succ_one]
    by_cases hp : old.isPrefixOf s
    · right
      obtain ⟨t, ht⟩ := List.isPrefixOf_iff_prefix.mp hp
      refine ⟨[], t, by rw [← ht]; rfl, ?_⟩
      rw [if_pos ⟨hold, hp⟩, ← ht, List.drop_left, pyReplaceNFuel_zero]
      rfl
    · rw [if_neg (by simp [hp])]
      match s, hs with
      | [], _ => exact Or.inl rfl
      | c :: rest, hs =>
        rcases ih rest (by simpa [Nat.lt_succ_iff, List.length_cons] using hs) with hres | hres
        · refine Or.inl ?_
          show c :: pyReplaceNFuel old new fuel 1 rest = c :: rest
          rw [hres]
        · obtain ⟨pre, post, hseq, hres⟩ := hres
          refine Or.inr ⟨c :: pre, post, by rw [List.cons_append, List.cons_append, ← hseq], ?_⟩
          show c :: pyReplaceNFuel old new fuel 1 rest = c :: pre ++ new ++ post
          rw [hres]
          rfl

/-- C8, amended: the final-cluster repair performs a *bounded* replacement
only in its anchored branch: when the running string does not end with the
word, it applies one count-1 replacement each for `word + ' '` and
`word + '<'`, and a count-1 replacement changes at most the leftmost
occurrence, returning the remainder verbatim.  But when the running string
*ends* with the word, the repair is the unbounded `replace`, rewriting every
occurrence — so the original at-most-one-occurrence claim fails there
(`C8_counterexample`). -/
theorem C8_ha_fix_replacement_semantics :
    (∀ (s old new : Str), old ≠ [] →
        pyReplace1 s old new = s ∨
        ∃ pre post, s = pre ++ old ++ post ∧
          pyReplace1 s old new = pre ++ new ++ post) ∧
    (∀ s w : Str, w.isSuffixOf s = true →
        hebHaFix s w = pyReplaceAll s w (w.take (w.length - 2) ++ str "aḩ")) ∧
    (∀ s w : Str, w.isSuffixOf s = false →
        hebHaFix s w =
          pyReplace1 (pyReplace1 s (w ++ str " ") (w.take (w.length - 2) ++ str "aḩ "))
            (w ++ str "<") (w.take (w.length - 2) ++ str "aḩ<")) := by
  refine ⟨fun s old new hold => pyReplaceNFuel_one_spec old new hold _ s (Nat.lt_succ_self _),
    fun s w hw => ?_, fun s w hw => ?_⟩
  · rw [hebHaFix, if_pos hw]
  · rw [hebHaFix, if_neg (by simp [hw])]

/-- C8, refutation of the claim as stated: under the one-rule table
`א ↦ xḩab xḩa`, the cleaned word `"xḩa"` ends in `'ḩa'` and the running
string ends with it, so the repair is the *unbounded* replace: the single
textual replacement rewrites both occurrences of `"xḩa"` (including the one
embedded in `"xḩab"`, a word that does not end in `'ḩa'`), taking their
count from 2 to 0 in one step; the accepted output is `"xaḩb xaḩ"`. -/
theorem C8_counterexample :
    transliterate_Hebrew [⟨str "א", str "xḩab xḩa"⟩] (str "א") false = .ok (str "xaḩb xaḩ") ∧
    pyCount (str "xḩab xḩa") (str "xḩa") = 2 ∧
    pyCount (str "xaḩb xaḩ") (str "xḩa") = 0 := ⟨rfl, rfl, rfl⟩

/-- Witness for C8: the count-1 specification applied to the concrete
replacement of `"a"` by `"c"` in `"aba"`. -/
theorem C8_witness :
    pyReplace1 (str "aba") (str "a") (str "c") = str "aba" ∨
    ∃ pre post, str "aba" = pre ++ str "a" ++ post ∧
      pyReplace1 (str "aba") (str "a") (str "c") = pre ++ str "c" ++ post :=
  C8_ha_fix_replacement_semantics.1 (str "aba") (str "a") (str "c") (by decide)

/-! ### Claim C5 -/

theorem pyFindAux_decomp {c : Char} :
    ∀ (u v : Str) (i : Nat), c ∉ u → pyFindAux [c] (u ++ c :: v) i = some (i + u.length) := by
  intro u
  induction u with
  | nil =>
    intro v i _
    rw [List.nil_append, pyFindAux, if_pos (by simp [List.isPrefixOf])]
    simp
  | cons x u' ih =>
    intro v i hc
    have hx : ¬ (List.isPrefixOf [c] (x :: (u' ++ c :: v)) = true) := by
      intro hp
      rw [List.isPrefixOf] at hp
      simp only [List.isPrefixOf, Bool.and_true] at hp
      exact hc (by rw [beq_iff_eq.mp hp]; exact List.mem_cons_self _ _)
    rw [List.cons_append, pyFindAux, if_neg hx,
      ih v (i+1) (fun hmem => hc (List.mem_cons_of_mem _ hmem))]
    simp only [List.length_cons]
    rw [Option.some.injEq]
    omega

theorem pyFindAux_not_mem {c : Char} :
    ∀ (l : Str) (i : Nat), c ∉ l → pyFindAux [c] l i = none := by
  intro l
  induction l with
  | nil => intro i _; rfl
  | cons x rest ih =>
    intro i hc
    have hx : ¬ (List.isPrefixOf [c] (x :: rest) = true) := by
      intro hp
      rw [List.isPrefixOf] at hp
      simp only [List.isPrefixOf, Bool.and_true] at hp
      exact hc (by rw [beq_iff_eq.mp hp]; exact List.mem_cons_self _ _)
    rw [pyFindAux, if_neg hx, ih (i+1) (fun hmem => hc (List.mem_cons_of_mem _ hmem))]

theorem pyFind_decomp {c : Char} {u v : Str} (hc : c ∉ u) :
    pyFind (u ++ c :: v) [c] 0 = some u.length := by
  rw [pyFind, List.drop_zero, pyFindAux_decomp u v 0 hc]
  simp

theorem pyFind_none_of_not_mem {c : Char} {w : Str} {start : Nat} (h : c ∉ w.drop start) :
    pyFind w [c] start = none := by
  rw [pyFind, pyFindAux_not_mem _ _ h]
  rfl

theorem drop_append_cons_succ {c : Char} (u v : Str) :
    (u ++ c :: v).drop (u.length + 1) = v := by
  have h1 : u ++ c :: v = (u ++ [c]) ++ v := by simp
  have h2 : (u ++ [c]).length = u.length + 1 := by simp
  rw [h1, ← h2, List.drop_left]

theorem drop_append_cons_two {c : Char} (u v : Str) :
    (u ++ c :: v).drop (u.length + 2) = v.drop 1 := by
  have h1 : (u ++ c :: v).drop (u.length + 2) = ((u ++ c :: v).drop (u.length + 1)).drop 1 := by
    rw [List.drop_drop]
  rw [h1, drop_append_cons_succ]

theorem schwaLoop_none {fuel start : Nat} {w s : Str}
    (h : pyFind w (str "ə") start = none) :
    schwaLoop (fuel+1) start w s = .ok (w, s) := by
  rw [schwaLoop, h]

theorem schwaLoop_some {fuel start : Nat} {w s : Str} {i : Nat}
    (h : pyFind w (str "ə") start = some i) :
    schwaLoop (fuel+1) start w s =
      if i < 2 then schwaLoop fuel (i+1) w s
      else
        if shwaConsonants.contains (w.getD (i-1) ' ') &&
            shortVowels.contains (w.getD (i-2) ' ') then
          schwaLoop fuel i
            (w.take i ++ w.drop (i +
              if dageshNext.contains ((w[i+1]?).getD ' ') &&
                  w[i+2]? = some ((w[i+1]?).getD ' ') then 2 else 1))
            (pyReplaceAll s w
              (w.take i ++ w.drop (i +
                if dageshNext.contains ((w[i+1]?).getD ' ') &&
                    w[i+2]? = some ((w[i+1]?).getD ' ') then 2 else 1)))
        else schwaLoop fuel (i+1) w s := by
  rw [schwaLoop, h]

/-- C5: the per-occurrence behaviour of the schwa pass, stated for a word
with a single schwa written as `u ++ 'ə' :: v` (the schwa sits at index
`u.length`): an occurrence before index 2 is left alone; an occurrence at
index ≥ 2 is deleted exactly when the preceding character is in the
consonant set and the one before it is a short vowel, with the following
doubled `dageshNext` consonant collapsed as well (two deletions) when
present, mirrored into the running string by the unbounded word replacement;
in every other situation the word and running string are unchanged.  The
search is bounded by six iterations, and exhausting all six without a break
is the fatal non-convergence error, as on the seven-schwa word. -/
theorem C5_schwa_step_characterisation :
    (∀ (s w : Str), w ≠ [] → pyIsDigit w = false → 2 ≤ w.length →
        containsSub w (str "ə") = true →
        hebSchwaWordStep s w =
          match schwaLoop 6 0 w s with
          | .error e => .error e
          | .ok ws => .ok ws.2) ∧
    (∀ (u v s : Str), 'ə' ∉ u → 'ə' ∉ v → u.length < 2 →
        schwaLoop 6 0 (u ++ 'ə' :: v) s = .ok (u ++ 'ə' :: v, s)) ∧
    (∀ (u v s : Str), 'ə' ∉ u → 'ə' ∉ v → 2 ≤ u.length →
        (shwaConsonants.contains ((u ++ 'ə' :: v).getD (u.length - 1) ' ') &&
          shortVowels.contains ((u ++ 'ə' :: v).getD (u.length - 2) ' ')) = false →
        schwaLoop 6 0 (u ++ 'ə' :: v) s = .ok (u ++ 'ə' :: v, s)) ∧
    (∀ (u v s : Str), 'ə' ∉ u → 'ə' ∉ v → 2 ≤ u.length →
        (shwaConsonants.contains ((u ++ 'ə' :: v).getD (u.length - 1) ' ') &&
          shortVowels.contains ((u ++ 'ə' :: v).getD (u.length - 2) ' ')) = true →
        (dageshNext.contains (((u ++ 'ə' :: v)[u.length + 1]?).getD ' ') &&
          (u ++ 'ə' :: v)[u.length + 2]? = some (((u ++ 'ə' :: v)[u.length + 1]?).getD ' '))
          = false →
        schwaLoop 6 0 (u ++ 'ə' :: v) s
          = .ok (u ++ v, pyReplaceAll s (u ++ 'ə' :: v) (u ++ v))) ∧
    (∀ (u v s : Str), 'ə' ∉ u → 'ə' ∉ v → 2 ≤ u.length →
        (shwaConsonants.contains ((u ++ 'ə' :: v).getD (u.length - 1) ' ') &&
          shortVowels.contains ((u ++ 'ə' :: v).getD (u.length - 2) ' ')) = true →
        (dageshNext.contains (((u ++ 'ə' :: v)[u.length + 1]?).getD ' ') &&
          (u ++ 'ə' :: v)[u.length + 2]? = some (((u ++ 'ə' :: v)[u.length + 1]?).getD ' '))
          = true →
        schwaLoop 6 0 (u ++ 'ə' :: v) s
          = .ok (u ++ v.drop 1, pyReplaceAll s (u ++ 'ə' :: v) (u ++ v.drop 1))) ∧
    schwaLoop 6 0 (str "əəəəəəə") (str "əəəəəəə") = .error .schwaNonConvergence := by
  have hstr : str "ə" = ['ə'] := rfl
  refine ⟨?_, ?_, ?_, ?_, ?_, rfl⟩
  · intro s w hne hdig hlen hctn
    rw [hebSchwaWordStep, if_neg hne, if_neg (by rw [hdig]; decide),
      if_neg (by omega : ¬ w.length < 2), if_neg (by rw [hctn]; decide)]
  · intro u v s hu hv hlt
    have hfind : pyFind (u ++ 'ə' :: v) (str "ə") 0 = some u.length := by
      rw [hstr]; exact pyFind_decomp hu
    rw [schwaLoop_some hfind, if_pos hlt]
    exact schwaLoop_none (by
      rw [hstr]
      exact pyFind_none_of_not_mem (by rw [drop_append_cons_succ]; exact hv))
  · intro u v s hu hv hge hcond
    have hfind : pyFind (u ++ 'ə' :: v) (str "ə") 0 = some u.length := by
      rw [hstr]; exact pyFind_decomp hu
    rw [schwaLoop_some hfind, if_neg (by omega : ¬ u.length < 2),
      if_neg (by rw [hcond]; decide)]
    exact schwaLoop_none (by
      rw [hstr]
      exact pyFind_none_of_not_mem (by rw [drop_append_cons_succ]; exact hv))
  · intro u v s hu hv hge hcond hdbl
    have hfind : pyFind (u ++ 'ə' :: v) (str "ə") 0 = some u.length := by
      rw [hstr]; exact pyFind_decomp hu
    rw [schwaLoop_some hfind, if_neg (by omega : ¬ u.length < 2), if_pos hcond,
      if_neg (by rw [hdbl]; decide), List.take_left, drop_append_cons_succ]
    exact schwaLoop_none (by
      rw [hstr]
      exact pyFind_none_of_not_mem (by
        rw [List.drop_left]
        exact hv))
  · intro u v s hu hv hge hcond hdbl
    have hfind : pyFind (u ++ 'ə' :: v) (str "ə") 0 = some u.length := by
      rw [hstr]; exact pyFind_decomp hu
    rw [schwaLoop_some hfind, if_neg (by omega : ¬ u.length < 2), if_pos hcond,
      if_pos hdbl, List.take_left, drop_append_cons_two]
    exact schwaLoop_none (by
      rw [hstr]
      exact pyFind_none_of_not_mem (by
        rw [List.drop_left]
        exact fun hmem => hv (List.drop_subset _ _ hmem)))

/-- Witness for C5: the characterisation applied to the word `"bazə"`
(`u = "baz"`, `v = ""`): the schwa at index 3 follows the consonant `'z'`
preceded by the short vowel `'a'`, no doubled consonant follows, so exactly
the schwa is deleted, and to the seven-schwa word, on which the six search
iterations are exhausted and the pass fails fatally. -/
theorem C5_witness :
    (hebSchwaWordStep (str "bazə") (str "bazə") =
      match schwaLoop 6 0 (str "bazə") (str "bazə") with
      | .error e => .error e
      | .ok ws => .ok ws.2) ∧
    schwaLoop 6 0 (str "baz" ++ 'ə' :: []) (str "bazə")
      = .ok (str "baz" ++ [],
          pyReplaceAll (str "bazə") (str "baz" ++ 'ə' :: []) (str "baz" ++ [])) :=
  ⟨C5_schwa_step_characterisation.1 (str "bazə") (str "bazə")
      (by decide) (by decide) (by decide) (by decide),
   C5_schwa_step_characterisation.2.2.2.1 (str "baz") [] (str "bazə")
      (by decide) (by decide) (by decide) (by decide) (by decide)⟩

end BibleTransliterations
